import Mathlib

/-!
Verification of the order-book pricing and bar-aggregation core of
`marketScrape` (files `src/scraper/orderbook_logic.py` and
`src/scraper/scraper_handler.py`).

Modelling conventions:
* Python `Decimal` values are modelled as exact rationals (`ℚ`).  The
  `Decimal` context carries 28 significant digits, far beyond the 8/4/2
  fractional-digit roundings the code applies at its boundaries, so context
  division is modelled as exact rational division.
* `float` values inside `aggregate_bars` are likewise modelled as exact
  rationals: conversion of decimal data to `float` is monotone and applied
  pointwise, so every selection/ordering fact proved below (first/last
  element, `min`, `max`, sortedness) is insensitive to this simplification.
* Rounding uses the code's `ROUND_HALF_UP` mode: round to nearest, ties
  away from zero.
-/

/-- `ROUND_HALF_UP` quantization at `places` fractional digits, as performed
by `OrderbookAnalyzer._round_decimal` (`value.quantize(Decimal('0.1') **
places, rounding=ROUND_HALF_UP)`): round to the nearest multiple of
`10 ^ (-places)`, ties away from zero. -/
def roundHalfUp (places : ℕ) (x : ℚ) : ℚ :=
  if 0 ≤ x then (⌊x * 10 ^ places + 1 / 2⌋ : ℤ) / 10 ^ places
  else -((⌊-x * 10 ^ places + 1 / 2⌋ : ℤ) / 10 ^ places)

/-- A digit character `0`–`9`. -/
def isDecDigit (c : Char) : Bool := '0' ≤ c && c ≤ '9'

/-- Numeric value of a digit string, most significant first. -/
def digitsVal (cs : List Char) : ℕ :=
  cs.foldl (fun a c => 10 * a + (c.toNat - '0'.toNat)) 0

/-- Parse the mantissa part of a decimal literal: digits with at most one
`'.'`, at least one digit overall (`"5"`, `"5."`, `".5"`, `"5.25"`). -/
def parseMantissa (cs : List Char) : Option ℚ :=
  let intPart := cs.takeWhile (fun c => c ≠ '.')
  let rest := cs.dropWhile (fun c => c ≠ '.')
  match rest with
  | [] =>
      if intPart ≠ [] ∧ intPart.all isDecDigit then some (digitsVal intPart) else none
  | _ :: frac =>
      if (intPart ≠ [] ∨ frac ≠ []) ∧ intPart.all isDecDigit ∧ frac.all isDecDigit
          ∧ frac.all (fun c => c ≠ '.') then
        some ((digitsVal intPart : ℚ) + (digitsVal frac : ℚ) / 10 ^ frac.length)
      else none

/-- Parse an optional-signed digit string as an integer exponent. -/
def parseExp (cs : List Char) : Option ℤ :=
  match cs with
  | '+' :: r => if r ≠ [] ∧ r.all isDecDigit then some (digitsVal r : ℤ) else none
  | '-' :: r => if r ≠ [] ∧ r.all isDecDigit then some (-(digitsVal r : ℤ)) else none
  | r => if r ≠ [] ∧ r.all isDecDigit then some (digitsVal r : ℤ) else none

/-- Model of Python's `decimal.Decimal(str)` conversion restricted to finite
numeric strings: optional surrounding whitespace, optional sign, digits with
an optional fraction point, optional `e`/`E` decimal exponent.  Strings that
do not denote an exact decimal number parse to `none` (the special values
`NaN`/`Infinity`, which are not exact-decimal numbers, are never produced by
the scraped order books and are treated as unparseable). -/
def parseDecimal (s : String) : Option ℚ :=
  let cs := (s.toList.dropWhile (fun c => c.isWhitespace)).reverse.dropWhile
      (fun c => c.isWhitespace) |>.reverse
  let signed : ℚ × List Char :=
    match cs with
    | '+' :: r => (1, r)
    | '-' :: r => (-1, r)
    | r => (1, r)
  let mant := signed.2.takeWhile (fun c => c ≠ 'e' ∧ c ≠ 'E')
  let expPart := signed.2.dropWhile (fun c => c ≠ 'e' ∧ c ≠ 'E')
  match expPart with
  | [] => (parseMantissa mant).map (fun m => signed.1 * m)
  | _ :: ecs =>
      match parseMantissa mant, parseExp ecs with
      | some m, some e => some (signed.1 * m * (10 : ℚ) ^ e)
      | _, _ => none

/-- `OrderLevel`: one price level of the book (`orderbook_logic.py`). -/
structure OrderLevel where
  price : ℚ
  quantity : ℚ
  deriving DecidableEq, Repr

/-- `WeightedPriceResult`: result record of `get_weighted_price`. -/
structure WeightedPriceResult where
  weighted_price : ℚ
  actual_amount_filled : ℚ
  base_volume_traded : ℚ
  deriving DecidableEq, Repr

/-- Distinguishable error kinds surfaced by the analyzer (`ValueError`
raised for a non-positive target, for unparseable level data, and for a
missing/empty side of the book). -/
inductive OrderbookError where
  | invalidArgument
  | parseError
  | invalidOrderbook
  deriving DecidableEq, Repr

/-- `OrderLevel.from_strings` lifted over the whole list comprehension
`[OrderLevel.from_strings(price, qty) for price, qty in orders]`: parse
every `[price, quantity]` pair, failing if any string is malformed. -/
def parseLevels : List (String × String) → Option (List OrderLevel)
  | [] => some []
  | (ps, qs) :: rest =>
      match parseDecimal ps, parseDecimal qs with
      | some p, some q => (parseLevels rest).map (fun ls => OrderLevel.mk p q :: ls)
      | _, _ => none

/-- Mutable state of the consumption loop in `get_weighted_price`:
`remaining_quote`, `total_base_traded`, `total_quote_spent`. -/
structure FillState where
  remaining : ℚ
  totalBase : ℚ
  totalQuote : ℚ
  deriving DecidableEq, Repr

/-- The `for level in order_levels` loop of `get_weighted_price`: stop once
`remaining_quote <= 0`, skip levels with non-positive price or quantity,
otherwise consume the level fully (`remaining >= price * quantity`) or
partially (setting `remaining` to `0`). -/
def fillWalk (st : FillState) : List OrderLevel → FillState
  | [] => st
  | l :: rest =>
      if st.remaining ≤ 0 then st
      else if l.price ≤ 0 ∨ l.quantity ≤ 0 then fillWalk st rest
      else
        let capacity := l.price * l.quantity
        if capacity ≤ st.remaining then
          fillWalk ⟨st.remaining - capacity, st.totalBase + l.quantity,
            st.totalQuote + capacity⟩ rest
        else
          fillWalk ⟨0, st.totalBase + st.remaining / l.price,
            st.totalQuote + st.remaining⟩ rest

/-- `OrderbookAnalyzer.get_weighted_price`: reject a non-positive target,
return an all-zero result on an empty book, fail on unparseable level data,
otherwise run the consumption walk and round the three result fields
half-up to `precision` fractional digits (default `8`). -/
def get_weighted_price (precision : ℕ) (orders : List (String × String))
    (target : ℚ) : Except OrderbookError WeightedPriceResult :=
  if target ≤ 0 then .error .invalidArgument
  else if orders.isEmpty then .ok ⟨0, 0, 0⟩
  else
    match parseLevels orders with
    | none => .error .parseError
    | some levels =>
        let final := fillWalk ⟨target, 0, 0⟩ levels
        let wp := if 0 < final.totalBase then final.totalQuote / final.totalBase else 0
        .ok ⟨roundHalfUp precision wp, roundHalfUp precision final.totalQuote,
          roundHalfUp precision final.totalBase⟩

/-- `MarketSummary` record (`orderbook_logic.py`). -/
structure MarketSummary where
  best_bid : ℚ
  best_ask : ℚ
  best_spread : ℚ
  best_spread_pct : ℚ
  market_id : String
  deriving DecidableEq, Repr

/-- `OrderbookAnalyzer._create_market_summary`: `best_spread = best_ask -
best_bid`, `best_spread_pct` relative to the mid price guarded by
`mid_price > 0`, prices and spread rounded to 2 places, percentage to 4. -/
def createMarketSummary (marketId : String) (best_bid best_ask : ℚ) :
    MarketSummary :=
  let best_spread := best_ask - best_bid
  let mid_price := (best_ask + best_bid) / 2
  let best_spread_pct := if 0 < mid_price then best_spread / mid_price * 100 else 0
  ⟨roundHalfUp 2 best_bid, roundHalfUp 2 best_ask, roundHalfUp 2 best_spread,
    roundHalfUp 4 best_spread_pct, marketId⟩

/-- `SpreadAnalysis` record (`orderbook_logic.py`). -/
structure SpreadAnalysis where
  level_quote : ℚ
  buy_price : ℚ
  sell_price : ℚ
  buy_filled_quote : ℚ
  sell_filled_quote : ℚ
  absolute_spread : ℚ
  relative_spread_pct : ℚ
  market_impact_buy_pct : ℚ
  market_impact_sell_pct : ℚ
  deriving DecidableEq, Repr

/-- `OrderbookAnalyzer._calculate_spread_metrics`: every division guarded
(`mid_price > 0`, `best_ask > 0`, `best_bid > 0`, substituting `0`),
price-like fields rounded to 2 places, percentages to 4, the level echo to
the analyzer's default precision. -/
def calculateSpreadMetrics (precision : ℕ) (buyR sellR : WeightedPriceResult)
    (best_ask best_bid level : ℚ) : SpreadAnalysis :=
  let buy_price := buyR.weighted_price
  let sell_price := sellR.weighted_price
  let absolute_spread :=
    if 0 < buy_price ∧ 0 < sell_price then buy_price - sell_price else 0
  let mid_price := (buy_price + sell_price) / 2
  let relative_spread :=
    if 0 < mid_price then absolute_spread / mid_price * 100 else 0
  let market_impact_buy :=
    if 0 < best_ask then (buy_price - best_ask) / best_ask * 100 else 0
  let market_impact_sell :=
    if 0 < best_bid then (best_bid - sell_price) / best_bid * 100 else 0
  ⟨roundHalfUp precision level, roundHalfUp 2 buy_price, roundHalfUp 2 sell_price,
    roundHalfUp 2 buyR.actual_amount_filled,
    roundHalfUp 2 sellR.actual_amount_filled,
    roundHalfUp 2 absolute_spread, roundHalfUp 4 relative_spread,
    roundHalfUp 4 market_impact_buy, roundHalfUp 4 market_impact_sell⟩

/-- Result shape of `calculate_spreads`: one `SpreadAnalysis` per requested
level plus the `market_summary` entry. -/
structure SpreadResults where
  levels : List (ℚ × SpreadAnalysis)
  market_summary : MarketSummary
  deriving DecidableEq, Repr

/-- The `for level in levels` loop of `calculate_spreads`: both fill
simulations per level, propagating the first error raised. -/
def spreadLevelsLoop (precision : ℕ) (asks bids : List (String × String))
    (best_ask best_bid : ℚ) : List ℚ → Except OrderbookError (List (ℚ × SpreadAnalysis))
  | [] => .ok []
  | L :: rest =>
      match get_weighted_price precision asks L,
          get_weighted_price precision bids L with
      | .ok buyR, .ok sellR =>
          match spreadLevelsLoop precision asks bids best_ask best_bid rest with
          | .ok tl =>
              .ok ((L, calculateSpreadMetrics precision buyR sellR best_ask best_bid L) :: tl)
          | .error e => .error e
      | .error e, _ => .error e
      | .ok _, .error e => .error e

/-- The complete bars of the input, in order: `aggregate_bars` keeps a bar
only when its `data` payload has at least 9 fields (`len(data) >= 9`).  A
bar is modelled by its payload list (a record without `data` contributes
the empty list, `bar.get('data', [])`). -/
def completeBars (bars : List (List ℚ)) : List (List ℚ) :=
  bars.filter (fun b => decide (9 ≤ b.length))

/-- The `opens` list built by the extraction loop of `aggregate_bars`. -/
def opensOf (bars : List (List ℚ)) : List ℚ :=
  (completeBars bars).map (fun b => b.getD 0 0)

/-- The `highs` list built by the extraction loop of `aggregate_bars`. -/
def highsOf (bars : List (List ℚ)) : List ℚ :=
  (completeBars bars).map (fun b => b.getD 1 0)

/-- The `lows` list built by the extraction loop of `aggregate_bars`. -/
def lowsOf (bars : List (List ℚ)) : List ℚ :=
  (completeBars bars).map (fun b => b.getD 2 0)

/-- The `closes` list built by the extraction loop of `aggregate_bars`. -/
def closesOf (bars : List (List ℚ)) : List ℚ :=
  (completeBars bars).map (fun b => b.getD 3 0)

/-- The five spread-summary values `[min, q1, q2, q3, max]` of one bar. -/
def spreadFive (b : List ℚ) : List ℚ :=
  [b.getD 4 0, b.getD 5 0, b.getD 6 0, b.getD 7 0, b.getD 8 0]

/-- The pooled `spreads` list built by the extraction loop of
`aggregate_bars`: the five spread-summary values of every complete bar. -/
def spreadsOf (bars : List (List ℚ)) : List ℚ :=
  ((completeBars bars).map spreadFive).flatten

/-- Python `min` over a non-empty list (default `0` on `[]`, unreached). -/
def listMinD : List ℚ → ℚ
  | [] => 0
  | x :: xs => xs.foldl min x

/-- Python `max` over a non-empty list (default `0` on `[]`, unreached). -/
def listMaxD : List ℚ → ℚ
  | [] => 0
  | x :: xs => xs.foldl max x

/-- `statistics.median`: middle element of the sorted data for odd length,
mean of the two middle elements for even length. -/
def pyMedian (data : List ℚ) : ℚ :=
  let s := List.insertionSort (· ≤ ·) data
  let n := s.length
  if n % 2 = 1 then s.getD (n / 2) 0
  else (s.getD (n / 2 - 1) 0 + s.getD (n / 2) 0) / 2

/-- One interpolated cut point of `statistics.quantiles(data, n=4)` with the
default `method='exclusive'`, taken on already-sorted data `s` of length
`ld`: `j, delta = divmod(i * (ld + 1), 4)`, `j` clamped to `1..ld-1`,
result `(s[j-1] * (4 - delta) + s[j] * delta) / 4`. -/
def quantileExcAt (s : List ℚ) (i : ℕ) : ℚ :=
  let ld := s.length
  let m := ld + 1
  let j0 := i * m / 4
  let delta := i * m % 4
  let j := if j0 < 1 then 1 else if ld - 1 < j0 then ld - 1 else j0
  (s.getD (j - 1) 0 * ((4 - delta : ℕ) : ℚ) + s.getD j 0 * (delta : ℚ)) / 4

/-- `statistics.quantiles(data, n=4)` (exclusive method): the three quartile
cut points of the sorted data. -/
def pyQuantiles4 (data : List ℚ) : List ℚ :=
  let s := List.insertionSort (· ≤ ·) data
  [quantileExcAt s 1, quantileExcAt s 2, quantileExcAt s 3]

/-- `aggregate_bars` (`scraper_handler.py`), generic in the two inner
quartile computations so that independence from the quartile method is
expressible: `None` on empty input or when no bar is complete; otherwise
`[first open, max high, min low, last close, min spread, q1, median, q3,
max spread]` over the complete bars, the last five over the pooled sorted
spread values.  The code applies no rounding before returning: each field
is stored via `Decimal(str(value))`, the exact value. -/
def aggregateBarsWith (q1fn q3fn : List ℚ → ℚ) (bars : List (List ℚ)) :
    Option (List ℚ) :=
  if bars.isEmpty then none
  else
    let opens := opensOf bars
    if opens.isEmpty then none
    else
      let sorted := List.insertionSort (· ≤ ·) (spreadsOf bars)
      some [opens.headD 0, listMaxD (highsOf bars), listMinD (lowsOf bars),
        (closesOf bars).getLastD 0,
        listMinD sorted,
        if 1 < sorted.length then q1fn sorted else sorted.headD 0,
        pyMedian sorted,
        if 1 < sorted.length then q3fn sorted else sorted.headD 0,
        listMaxD sorted]

/-- `aggregate_bars` with the quartile method the code uses:
`statistics.quantiles(spreads, n=4)[0]` and `[2]`. -/
def aggregate_bars (bars : List (List ℚ)) : Option (List ℚ) :=
  aggregateBarsWith (fun s => (pyQuantiles4 s).getD 0 0)
    (fun s => (pyQuantiles4 s).getD 2 0) bars

/-- `OrderbookAnalyzer.calculate_spreads`: reject a book with an empty side,
read the top-of-book prices, analyze each requested level and append the
market summary.  A book whose top-of-book entry fails to parse aborts the
calculation (the code raises on it). -/
def calculate_spreads (precision : ℕ) (marketId : String)
    (asks bids : List (String × String)) (levels : List ℚ) :
    Except OrderbookError SpreadResults :=
  if asks.isEmpty ∨ bids.isEmpty then .error .invalidOrderbook
  else
    match parseDecimal (asks.headD ("", "")).1, parseDecimal (bids.headD ("", "")).1 with
    | some best_ask, some best_bid =>
        match spreadLevelsLoop precision asks bids best_ask best_bid levels with
        | .ok lv => .ok ⟨lv, createMarketSummary marketId best_bid best_ask⟩
        | .error e => .error e
    | _, _ => .error .invalidOrderbook

/-! ### Helper lemmas about rounding -/

theorem roundHalfUp_zero (p : ℕ) : roundHalfUp p 0 = 0 := by
  rw [roundHalfUp, if_pos (le_refl (0 : ℚ)), zero_mul, zero_add]
  have h0 : ⌊(1 : ℚ) / 2⌋ = 0 := by
    apply Int.floor_eq_zero_iff.mpr
    rw [Set.mem_Ico]
    norm_num
  rw [h0]
  norm_num

theorem roundHalfUp_nonneg (p : ℕ) {x : ℚ} (h : 0 ≤ x) : 0 ≤ roundHalfUp p x := by
  rw [roundHalfUp, if_pos h]
  apply div_nonneg _ (by positivity)
  have : (0 : ℤ) ≤ ⌊x * 10 ^ p + 1 / 2⌋ :=
    Int.floor_nonneg.mpr (by nlinarith [pow_pos (show (0:ℚ) < 10 by norm_num) p])
  exact_mod_cast this

theorem roundHalfUp_le_roundHalfUp (p : ℕ) {x y : ℚ} (hx : 0 ≤ x) (hxy : x ≤ y) :
    roundHalfUp p x ≤ roundHalfUp p y := by
  rw [roundHalfUp, if_pos hx, roundHalfUp, if_pos (hx.trans hxy)]
  have hfl : (⌊x * 10 ^ p + 1 / 2⌋ : ℤ) ≤ ⌊y * 10 ^ p + 1 / 2⌋ := by
    apply Int.floor_le_floor
    nlinarith [pow_pos (show (0:ℚ) < 10 by norm_num) p]
  have hcast : ((⌊x * 10 ^ p + 1 / 2⌋ : ℤ) : ℚ) ≤ ((⌊y * 10 ^ p + 1 / 2⌋ : ℤ) : ℚ) := by
    exact_mod_cast hfl
  exact div_le_div_of_nonneg_right hcast (by positivity)

theorem roundHalfUp_two_pos {x : ℚ} (h : 1 / 200 ≤ x) : 0 < roundHalfUp 2 x := by
  rw [roundHalfUp, if_pos (by linarith)]
  have hfl : (1 : ℤ) ≤ ⌊x * 10 ^ 2 + 1 / 2⌋ := by
    apply Int.le_floor.mpr
    push_cast
    nlinarith
  have : (1 : ℚ) ≤ (⌊x * 10 ^ 2 + 1 / 2⌋ : ℤ) := by exact_mod_cast hfl
  positivity

/-! ### Helper lemmas about the fill walk -/

theorem fillWalk_of_nonpos {st : FillState} (h : st.remaining ≤ 0) :
    ∀ levels : List OrderLevel, fillWalk st levels = st := by
  intro levels
  cases levels with
  | nil => rfl
  | cons l rest => rw [fillWalk, if_pos h]

/-- Conservation of notional along the walk: the quote spent plus the quote
remaining is constant, the remainder never turns negative, and the quote
spent never decreases. -/
theorem fillWalk_invariant :
    ∀ (levels : List OrderLevel) (st : FillState), 0 ≤ st.remaining →
      (fillWalk st levels).totalQuote + (fillWalk st levels).remaining
          = st.totalQuote + st.remaining
      ∧ 0 ≤ (fillWalk st levels).remaining
      ∧ st.totalQuote ≤ (fillWalk st levels).totalQuote := by
  intro levels
  induction levels with
  | nil => exact fun st h => ⟨rfl, h, le_refl _⟩
  | cons l rest ih =>
      intro st h
      by_cases h0 : st.remaining ≤ 0
      · rw [fillWalk_of_nonpos h0]
        exact ⟨rfl, h, le_refl _⟩
      · by_cases hinv : l.price ≤ 0 ∨ l.quantity ≤ 0
        · rw [show fillWalk st (l :: rest) = fillWalk st rest by
            rw [fillWalk, if_neg h0, if_pos hinv]]
          exact ih st h
        · push_neg at hinv h0
          obtain ⟨hp, hq⟩ := hinv
          by_cases hcap : l.price * l.quantity ≤ st.remaining
          · rw [show fillWalk st (l :: rest)
                = fillWalk ⟨st.remaining - l.price * l.quantity,
                    st.totalBase + l.quantity, st.totalQuote + l.price * l.quantity⟩ rest by
              rw [fillWalk, if_neg (not_le.mpr h0), if_neg (by push_neg; exact ⟨hp, hq⟩),
                if_pos hcap]]
            obtain ⟨hsum, hnn, hmono⟩ :=
              ih ⟨st.remaining - l.price * l.quantity,
                st.totalBase + l.quantity, st.totalQuote + l.price * l.quantity⟩
                (by simpa using hcap)
            refine ⟨by rw [hsum]; ring, hnn, ?_⟩
            calc st.totalQuote ≤ st.totalQuote + l.price * l.quantity := by nlinarith
              _ ≤ _ := hmono
          · rw [show fillWalk st (l :: rest)
                = fillWalk ⟨0, st.totalBase + st.remaining / l.price,
                    st.totalQuote + st.remaining⟩ rest by
              rw [fillWalk, if_neg (not_le.mpr h0), if_neg (by push_neg; exact ⟨hp, hq⟩),
                if_neg hcap]]
            obtain ⟨hsum, hnn, hmono⟩ :=
              ih ⟨0, st.totalBase + st.remaining / l.price,
                st.totalQuote + st.remaining⟩ (le_refl 0)
            refine ⟨by rw [hsum]; ring, hnn, ?_⟩
            calc st.totalQuote ≤ st.totalQuote + st.remaining := by linarith
              _ ≤ _ := hmono

/-- The base volume never decreases along the walk, and if it does not
increase then no level was consumed, so the quote spent is unchanged. -/
theorem fillWalk_base_mono :
    ∀ (levels : List OrderLevel) (st : FillState),
      st.totalBase ≤ (fillWalk st levels).totalBase
      ∧ ((fillWalk st levels).totalBase = st.totalBase →
          (fillWalk st levels).totalQuote = st.totalQuote) := by
  intro levels
  induction levels with
  | nil => exact fun st => ⟨le_refl _, fun _ => rfl⟩
  | cons l rest ih =>
      intro st
      by_cases h0 : st.remaining ≤ 0
      · rw [fillWalk_of_nonpos h0]
        exact ⟨le_refl _, fun _ => rfl⟩
      · by_cases hinv : l.price ≤ 0 ∨ l.quantity ≤ 0
        · rw [show fillWalk st (l :: rest) = fillWalk st rest by
            rw [fillWalk, if_neg h0, if_pos hinv]]
          exact ih st
        · push_neg at hinv h0
          obtain ⟨hp, hq⟩ := hinv
          by_cases hcap : l.price * l.quantity ≤ st.remaining
          · rw [show fillWalk st (l :: rest)
                = fillWalk ⟨st.remaining - l.price * l.quantity,
                    st.totalBase + l.quantity, st.totalQuote + l.price * l.quantity⟩ rest by
              rw [fillWalk, if_neg (not_le.mpr h0), if_neg (by push_neg; exact ⟨hp, hq⟩),
                if_pos hcap]]
            obtain ⟨hmono, -⟩ :=
              ih ⟨st.remaining - l.price * l.quantity,
                st.totalBase + l.quantity, st.totalQuote + l.price * l.quantity⟩
            refine ⟨by simp at hmono ⊢; linarith, fun hEq => absurd hEq ?_⟩
            simp only at hmono
            intro hEq
            nlinarith
          · rw [show fillWalk st (l :: rest)
                = fillWalk ⟨0, st.totalBase + st.remaining / l.price,
                    st.totalQuote + st.remaining⟩ rest by
              rw [fillWalk, if_neg (not_le.mpr h0), if_neg (by push_neg; exact ⟨hp, hq⟩),
                if_neg hcap]]
            obtain ⟨hmono, -⟩ :=
              ih ⟨0, st.totalBase + st.remaining / l.price,
                st.totalQuote + st.remaining⟩
            have hdiv : 0 < st.remaining / l.price := div_pos h0 hp
            refine ⟨by simp only at hmono ⊢; linarith, fun hEq => absurd hEq ?_⟩
            simp only at hmono
            intro hEq
            linarith

/-- Skipped levels are inert: removing a level with non-positive price or
quantity anywhere in the list does not change the walk. -/
theorem fillWalk_skip_invalid (l : OrderLevel) (hl : l.price ≤ 0 ∨ l.quantity ≤ 0) :
    ∀ (xs ys : List OrderLevel) (st : FillState),
      fillWalk st (xs ++ l :: ys) = fillWalk st (xs ++ ys) := by
  intro xs
  induction xs with
  | nil =>
      intro ys st
      by_cases h0 : st.remaining ≤ 0
      · rw [fillWalk_of_nonpos h0, fillWalk_of_nonpos h0]
      · simp only [List.nil_append]
        rw [fillWalk, if_neg h0, if_pos hl]
  | cons x xs ih =>
      intro ys st
      by_cases h0 : st.remaining ≤ 0
      · rw [fillWalk_of_nonpos h0, fillWalk_of_nonpos h0]
      · simp only [List.cons_append]
        by_cases hx : x.price ≤ 0 ∨ x.quantity ≤ 0
        · rw [fillWalk, if_neg h0, if_pos hx, fillWalk, if_neg h0, if_pos hx, ih]
        · by_cases hcap : x.price * x.quantity ≤ st.remaining
          · rw [fillWalk, if_neg h0, if_neg hx, fillWalk, if_neg h0, if_neg hx]
            simp only [if_pos hcap]
            rw [ih]
          · rw [fillWalk, if_neg h0, if_neg hx, fillWalk, if_neg h0, if_neg hx]
            simp only [if_neg hcap]
            rw [ih]

/-- Unfolding of `get_weighted_price` on a non-empty, well-parsed book with
a positive target. -/
theorem get_weighted_price_eq (precision : ℕ) (orders : List (String × String))
    (target : ℚ) (levels : List OrderLevel) (ht : 0 < target)
    (hne : orders ≠ []) (hp : parseLevels orders = some levels) :
    get_weighted_price precision orders target =
      .ok ⟨roundHalfUp precision
            (if 0 < (fillWalk ⟨target, 0, 0⟩ levels).totalBase then
              (fillWalk ⟨target, 0, 0⟩ levels).totalQuote
                / (fillWalk ⟨target, 0, 0⟩ levels).totalBase
            else 0),
          roundHalfUp precision (fillWalk ⟨target, 0, 0⟩ levels).totalQuote,
          roundHalfUp precision (fillWalk ⟨target, 0, 0⟩ levels).totalBase⟩ := by
  rw [get_weighted_price, if_neg (not_le.mpr ht),
    if_neg (by simpa [List.isEmpty_iff] using hne), hp]

/-- On a successful run of `calculate_spreads`, the `market_summary` field
is the summary of the parsed top-of-book prices. -/
theorem calculate_spreads_summary (precision : ℕ) (marketId : String)
    (asks bids : List (String × String)) (levels : List ℚ) (r : SpreadResults)
    (a b : ℚ)
    (hr : calculate_spreads precision marketId asks bids levels = .ok r)
    (ha : parseDecimal (asks.headD ("", "")).1 = some a)
    (hb : parseDecimal (bids.headD ("", "")).1 = some b) :
    r.market_summary = createMarketSummary marketId b a := by
  rw [calculate_spreads] at hr
  split at hr
  · cases hr
  · split at hr
    rotate_left
    · cases hr
    rename_i best_ask best_bid hEqa hEqb
    rw [ha, Option.some.injEq] at hEqa
    rw [hb, Option.some.injEq] at hEqb
    subst hEqa
    subst hEqb
    split at hr
    · cases hr
      rfl
    · cases hr

/-! ### Helper lemmas about list minimum and maximum -/

theorem foldl_min_le_init (xs : List ℚ) : ∀ a : ℚ, xs.foldl min a ≤ a := by
  induction xs with
  | nil => exact fun a => le_refl a
  | cons x xs ih => exact fun a => (ih (min a x)).trans (min_le_left a x)

theorem foldl_min_le_mem (xs : List ℚ) :
    ∀ (a x : ℚ), x ∈ xs → xs.foldl min a ≤ x := by
  induction xs with
  | nil => intro a x hx; cases hx
  | cons y ys ih =>
      intro a x hx
      rcases List.mem_cons.mp hx with h | h
      · subst h
        exact (foldl_min_le_init ys (min a x)).trans (min_le_right a x)
      · exact ih (min a y) x h

theorem foldl_min_mem (xs : List ℚ) : ∀ a : ℚ, xs.foldl min a ∈ a :: xs := by
  induction xs with
  | nil => exact fun a => List.mem_singleton.mpr rfl
  | cons x xs ih =>
      intro a
      have := ih (min a x)
      rcases List.mem_cons.mp this with h | h
      · rcases min_choice a x with hc | hc
        · rw [List.foldl_cons, h, hc]; exact List.mem_cons_self _ _
        · rw [List.foldl_cons, h, hc]
          exact List.mem_cons.mpr (Or.inr (List.mem_cons_self _ _))
      · exact List.mem_cons.mpr (Or.inr (List.mem_cons.mpr (Or.inr h)))

theorem foldl_max_init_le (xs : List ℚ) : ∀ a : ℚ, a ≤ xs.foldl max a := by
  induction xs with
  | nil => exact fun a => le_refl a
  | cons x xs ih => exact fun a => (le_max_left a x).trans (ih (max a x))

theorem foldl_max_mem_le (xs : List ℚ) :
    ∀ (a x : ℚ), x ∈ xs → x ≤ xs.foldl max a := by
  induction xs with
  | nil => intro a x hx; cases hx
  | cons y ys ih =>
      intro a x hx
      rcases List.mem_cons.mp hx with h | h
      · subst h
        exact (le_max_right a x).trans (foldl_max_init_le ys (max a x))
      · exact ih (max a y) x h

theorem foldl_max_mem (xs : List ℚ) : ∀ a : ℚ, xs.foldl max a ∈ a :: xs := by
  induction xs with
  | nil => exact fun a => List.mem_singleton.mpr rfl
  | cons x xs ih =>
      intro a
      have := ih (max a x)
      rcases List.mem_cons.mp this with h | h
      · rcases max_choice a x with hc | hc
        · rw [List.foldl_cons, h, hc]; exact List.mem_cons_self _ _
        · rw [List.foldl_cons, h, hc]
          exact List.mem_cons.mpr (Or.inr (List.mem_cons_self _ _))
      · exact List.mem_cons.mpr (Or.inr (List.mem_cons.mpr (Or.inr h)))

theorem listMinD_mem {l : List ℚ} (h : l ≠ []) : listMinD l ∈ l := by
  cases l with
  | nil => exact absurd rfl h
  | cons x xs => exact foldl_min_mem xs x

theorem listMinD_le {l : List ℚ} (x : ℚ) (hx : x ∈ l) : listMinD l ≤ x := by
  cases l with
  | nil => cases hx
  | cons y ys =>
      rcases List.mem_cons.mp hx with h | h
      · subst h; exact foldl_min_le_init ys x
      · exact foldl_min_le_mem ys y x h

theorem listMaxD_mem {l : List ℚ} (h : l ≠ []) : listMaxD l ∈ l := by
  cases l with
  | nil => exact absurd rfl h
  | cons x xs => exact foldl_max_mem xs x

theorem le_listMaxD {l : List ℚ} (x : ℚ) (hx : x ∈ l) : x ≤ listMaxD l := by
  cases l with
  | nil => cases hx
  | cons y ys =>
      rcases List.mem_cons.mp hx with h | h
      · subst h; exact foldl_max_init_le ys x
      · exact foldl_max_mem_le ys y x h

/-! ### Concrete evaluation helpers -/

theorem roundHalfUp_eqz (p : ℕ) (x : ℚ) (z : ℤ) (hx : 0 ≤ x)
    (h : (z : ℚ) ≤ x * 10 ^ p + 1 / 2 ∧ x * 10 ^ p + 1 / 2 < z + 1) :
    roundHalfUp p x = (z : ℚ) / 10 ^ p := by
  rw [roundHalfUp, if_pos hx, Int.floor_eq_iff.mpr ?_]
  exact_mod_cast h

theorem roundHalfUp_eq_self (p : ℕ) (x : ℚ) (z : ℤ) (hx : 0 ≤ x)
    (hz : x * 10 ^ p = (z : ℚ)) : roundHalfUp p x = x := by
  rw [roundHalfUp_eqz p x z hx ⟨by rw [← hz]; linarith, by rw [← hz]; linarith⟩, ← hz]
  have hp : (10 : ℚ) ^ p ≠ 0 := by positivity
  field_simp

theorem parseDecimal_0 : parseDecimal "0" = some 0 := by
  rw [show parseDecimal "0" = some (1 * ((0 : ℕ) : ℚ)) from rfl]
  norm_num

theorem parseDecimal_1 : parseDecimal "1" = some 1 := by
  rw [show parseDecimal "1" = some (1 * ((1 : ℕ) : ℚ)) from rfl]
  norm_num

theorem parseDecimal_2 : parseDecimal "2" = some 2 := by
  rw [show parseDecimal "2" = some (1 * ((2 : ℕ) : ℚ)) from rfl]
  norm_num

theorem parseDecimal_3 : parseDecimal "3" = some 3 := by
  rw [show parseDecimal "3" = some (1 * ((3 : ℕ) : ℚ)) from rfl]
  norm_num

theorem parseDecimal_100 : parseDecimal "100" = some 100 := by
  rw [show parseDecimal "100" = some (1 * ((100 : ℕ) : ℚ)) from rfl]
  norm_num

theorem parseDecimal_101 : parseDecimal "101" = some 101 := by
  rw [show parseDecimal "101" = some (1 * ((101 : ℕ) : ℚ)) from rfl]
  norm_num

theorem parseDecimal_102 : parseDecimal "102" = some 102 := by
  rw [show parseDecimal "102" = some (1 * ((102 : ℕ) : ℚ)) from rfl]
  norm_num

theorem parseDecimal_100_004 : parseDecimal "100.004" = some (25001 / 250) := by
  rw [show parseDecimal "100.004"
      = some (1 * (((100 : ℕ) : ℚ) + ((4 : ℕ) : ℚ) / 10 ^ 3)) from rfl]
  norm_num

theorem parseDecimal_abc : parseDecimal "abc" = none := rfl

theorem eval_gwp_shallow_book :
    get_weighted_price 8 [("100", "1")] 150 = Except.ok ⟨100, 100, 1⟩ := by
  rw [get_weighted_price_eq 8 [("100", "1")] 150 [⟨100, 1⟩] (by norm_num) (by simp)
      (by simp [parseLevels, parseDecimal_100, parseDecimal_1]),
    show fillWalk ⟨150, 0, 0⟩ [⟨100, 1⟩] = ⟨50, 1, 100⟩ by norm_num [fillWalk]]
  have h1 : roundHalfUp 8 (100 : ℚ) = 100 :=
    roundHalfUp_eq_self 8 100 (10 ^ 10) (by norm_num) (by norm_num)
  have h2 : roundHalfUp 8 (1 : ℚ) = 1 :=
    roundHalfUp_eq_self 8 1 (10 ^ 8) (by norm_num) (by norm_num)
  norm_num [h1, h2]

theorem eval_gwp_third :
    get_weighted_price 8 [("3", "1")] 1
      = Except.ok ⟨3, 1, 33333333 / 100000000⟩ := by
  rw [get_weighted_price_eq 8 [("3", "1")] 1 [⟨3, 1⟩] (by norm_num) (by simp)
      (by simp [parseLevels, parseDecimal_3, parseDecimal_1]),
    show fillWalk ⟨1, 0, 0⟩ [⟨3, 1⟩] = ⟨0, 1 / 3, 1⟩ by norm_num [fillWalk]]
  have h1 : roundHalfUp 8 (3 : ℚ) = 3 :=
    roundHalfUp_eq_self 8 3 (3 * 10 ^ 8) (by norm_num) (by push_cast; ring)
  have h2 : roundHalfUp 8 (1 : ℚ) = 1 :=
    roundHalfUp_eq_self 8 1 (10 ^ 8) (by norm_num) (by norm_num)
  have h3 : roundHalfUp 8 (1 / 3 : ℚ) = 33333333 / 100000000 := by
    rw [roundHalfUp_eqz 8 (1 / 3) 33333333 (by norm_num) (by constructor <;> norm_num)]
    norm_num
  norm_num [h1, h2, h3]

theorem eval_gwp_interleaved :
    get_weighted_price 8 [("100", "1"), ("101", "0"), ("102", "1")] 250
      = Except.ok ⟨101, 202, 2⟩ := by
  rw [get_weighted_price_eq 8 [("100", "1"), ("101", "0"), ("102", "1")] 250
      [⟨100, 1⟩, ⟨101, 0⟩, ⟨102, 1⟩] (by norm_num) (by simp)
      (by simp [parseLevels, parseDecimal_100, parseDecimal_101, parseDecimal_102,
        parseDecimal_0, parseDecimal_1]),
    show fillWalk ⟨250, 0, 0⟩ [⟨100, 1⟩, ⟨101, 0⟩, ⟨102, 1⟩] = ⟨48, 2, 202⟩ by
      norm_num [fillWalk]]
  have h1 : roundHalfUp 8 (101 : ℚ) = 101 :=
    roundHalfUp_eq_self 8 101 (101 * 10 ^ 8) (by norm_num) (by push_cast; ring)
  have h2 : roundHalfUp 8 (202 : ℚ) = 202 :=
    roundHalfUp_eq_self 8 202 (202 * 10 ^ 8) (by norm_num) (by push_cast; ring)
  have h3 : roundHalfUp 8 (2 : ℚ) = 2 :=
    roundHalfUp_eq_self 8 2 (2 * 10 ^ 8) (by norm_num) (by push_cast; ring)
  norm_num [h1, h2, h3]

theorem eval_gwp_no_invalid :
    get_weighted_price 8 [("100", "1"), ("102", "1")] 250
      = Except.ok ⟨101, 202, 2⟩ := by
  rw [get_weighted_price_eq 8 [("100", "1"), ("102", "1")] 250
      [⟨100, 1⟩, ⟨102, 1⟩] (by norm_num) (by simp)
      (by simp [parseLevels, parseDecimal_100, parseDecimal_102, parseDecimal_1]),
    show fillWalk ⟨250, 0, 0⟩ [⟨100, 1⟩, ⟨102, 1⟩] = ⟨48, 2, 202⟩ by
      norm_num [fillWalk]]
  have h1 : roundHalfUp 8 (101 : ℚ) = 101 :=
    roundHalfUp_eq_self 8 101 (101 * 10 ^ 8) (by norm_num) (by push_cast; ring)
  have h2 : roundHalfUp 8 (202 : ℚ) = 202 :=
    roundHalfUp_eq_self 8 202 (202 * 10 ^ 8) (by norm_num) (by push_cast; ring)
  have h3 : roundHalfUp 8 (2 : ℚ) = 2 :=
    roundHalfUp_eq_self 8 2 (2 * 10 ^ 8) (by norm_num) (by push_cast; ring)
  norm_num [h1, h2, h3]

/-! ### Claim theorems -/

/-- C1: insufficient depth is not an error.  With `levels = [(100, 1)]` and
`target_notional = 150` the fill calculator returns `amount_filled = 100`,
`weighted_price = 100`, `volume_traded = 1` with `amount_filled < target`;
in general, whenever the walk exhausts the levels with quote still
remaining, the quote spent equals the target minus the unfilled remainder
(the notional actually filled) and is strictly below the target, and no
error is raised. -/
theorem insufficient_depth_not_error_C1 :
    get_weighted_price 8 [("100", "1")] 150 = Except.ok ⟨100, 100, 1⟩
    ∧ (100 : ℚ) < 150
    ∧ ∀ (levels : List OrderLevel) (target : ℚ), 0 < target →
        (fillWalk ⟨target, 0, 0⟩ levels).totalQuote
            = target - (fillWalk ⟨target, 0, 0⟩ levels).remaining
        ∧ (0 < (fillWalk ⟨target, 0, 0⟩ levels).remaining →
            (fillWalk ⟨target, 0, 0⟩ levels).totalQuote < target) := by
  refine ⟨eval_gwp_shallow_book, by norm_num, ?_⟩
  intro levels target ht
  obtain ⟨hsum, hnn, -⟩ := fillWalk_invariant levels ⟨target, 0, 0⟩ (le_of_lt ht)
  simp only at hsum hnn
  constructor
  · linarith
  · intro hrem
    linarith

theorem insufficient_depth_not_error_C1_witness :
    (fillWalk ⟨150, 0, 0⟩ [OrderLevel.mk 100 1]).totalQuote
        = 150 - (fillWalk ⟨150, 0, 0⟩ [OrderLevel.mk 100 1]).remaining
    ∧ (0 < (fillWalk ⟨150, 0, 0⟩ [OrderLevel.mk 100 1]).remaining →
        (fillWalk ⟨150, 0, 0⟩ [OrderLevel.mk 100 1]).totalQuote < 150) :=
  insufficient_depth_not_error_C1.2.2 [OrderLevel.mk 100 1] 150 (by norm_num)

/-- C2 counterexample: the invariant `weighted_price = amount_filled /
volume_traded` fails on the fields as returned (after rounding).  For
`orders = [("3", "1")]`, `target = 1` the returned record is
`(3, 1, 0.33333333)`, `volume_traded > 0`, yet
`amount_filled / volume_traded = 1 / 0.33333333 ≠ 3`. -/
theorem weighted_price_invariant_C2_counterexample :
    get_weighted_price 8 [("3", "1")] 1
        = Except.ok ⟨3, 1, 33333333 / 100000000⟩
    ∧ (0 : ℚ) < 33333333 / 100000000
    ∧ (3 : ℚ) ≠ 1 / (33333333 / 100000000 : ℚ) :=
  ⟨eval_gwp_third, by norm_num, by norm_num⟩

/-- C2 amended: the invariant holds for the pre-rounding accumulators: when
the accumulated base volume is zero the returned record is all zeros, and
when it is positive the returned `weighted_price` is the half-up rounding
of `total_notional / total_base`, a quotient that exactly satisfies
`quotient * total_base = total_notional`.  After the final rounding the
identity over the returned fields holds only approximately. -/
theorem weighted_price_invariant_C2_amended (orders : List (String × String))
    (levels : List OrderLevel) (target : ℚ) (r : WeightedPriceResult)
    (ht : 0 < target) (hne : orders ≠ [])
    (hp : parseLevels orders = some levels)
    (hr : get_weighted_price 8 orders target = Except.ok r) :
    ((fillWalk ⟨target, 0, 0⟩ levels).totalBase = 0 →
        r.weighted_price = 0 ∧ r.actual_amount_filled = 0
        ∧ r.base_volume_traded = 0)
    ∧ (0 < (fillWalk ⟨target, 0, 0⟩ levels).totalBase →
        r.weighted_price
            = roundHalfUp 8 ((fillWalk ⟨target, 0, 0⟩ levels).totalQuote
                / (fillWalk ⟨target, 0, 0⟩ levels).totalBase)
        ∧ ((fillWalk ⟨target, 0, 0⟩ levels).totalQuote
              / (fillWalk ⟨target, 0, 0⟩ levels).totalBase)
            * (fillWalk ⟨target, 0, 0⟩ levels).totalBase
            = (fillWalk ⟨target, 0, 0⟩ levels).totalQuote) := by
  rw [get_weighted_price_eq 8 orders target levels ht hne hp] at hr
  injection hr with hr
  subst hr
  constructor
  · intro hbase
    obtain ⟨-, hquote⟩ := fillWalk_base_mono levels ⟨target, 0, 0⟩
    simp only at hquote
    have hq0 : (fillWalk ⟨target, 0, 0⟩ levels).totalQuote = 0 := hquote hbase
    refine ⟨?_, ?_, ?_⟩
    · rw [hbase, if_neg (lt_irrefl (0 : ℚ)), roundHalfUp_zero]
    · simp only [hq0, roundHalfUp_zero]
    · simp only [hbase, roundHalfUp_zero]
  · intro hbase
    refine ⟨?_, div_mul_cancel₀ _ (ne_of_gt hbase)⟩
    simp only [if_pos hbase]

theorem weighted_price_invariant_C2_amended_witness :
    ((fillWalk ⟨1, 0, 0⟩ [OrderLevel.mk 3 1]).totalBase = 0 →
        (WeightedPriceResult.mk 3 1 (33333333 / 100000000)).weighted_price = 0
        ∧ (WeightedPriceResult.mk 3 1 (33333333 / 100000000)).actual_amount_filled = 0
        ∧ (WeightedPriceResult.mk 3 1 (33333333 / 100000000)).base_volume_traded = 0)
    ∧ (0 < (fillWalk ⟨1, 0, 0⟩ [OrderLevel.mk 3 1]).totalBase →
        (WeightedPriceResult.mk 3 1 (33333333 / 100000000)).weighted_price
            = roundHalfUp 8 ((fillWalk ⟨1, 0, 0⟩ [OrderLevel.mk 3 1]).totalQuote
                / (fillWalk ⟨1, 0, 0⟩ [OrderLevel.mk 3 1]).totalBase)
        ∧ ((fillWalk ⟨1, 0, 0⟩ [OrderLevel.mk 3 1]).totalQuote
              / (fillWalk ⟨1, 0, 0⟩ [OrderLevel.mk 3 1]).totalBase)
            * (fillWalk ⟨1, 0, 0⟩ [OrderLevel.mk 3 1]).totalBase
            = (fillWalk ⟨1, 0, 0⟩ [OrderLevel.mk 3 1]).totalQuote) :=
  weighted_price_invariant_C2_amended [("3", "1")] [OrderLevel.mk 3 1] 1
    ⟨3, 1, 33333333 / 100000000⟩ (by norm_num) (by simp)
    (by simp [parseLevels, parseDecimal_3, parseDecimal_1]) eval_gwp_third

/-- C3: levels with non-positive price or quantity are skipped without
consuming notional or decrementing the remaining target — removing such a
level anywhere in the walk leaves the walk's state unchanged — and
concretely a `quantity = 0` level interleaved between two valid levels
changes nothing: the walk consumes the later valid level and no error is
raised. -/
theorem skip_invalid_levels_C3 (xs ys : List OrderLevel) (l : OrderLevel)
    (hl : l.price ≤ 0 ∨ l.quantity ≤ 0) (st : FillState) :
    fillWalk st (xs ++ l :: ys) = fillWalk st (xs ++ ys)
    ∧ get_weighted_price 8 [("100", "1"), ("101", "0"), ("102", "1")] 250
        = Except.ok ⟨101, 202, 2⟩
    ∧ get_weighted_price 8 [("100", "1"), ("102", "1")] 250
        = Except.ok ⟨101, 202, 2⟩ :=
  ⟨fillWalk_skip_invalid l hl xs ys st, eval_gwp_interleaved, eval_gwp_no_invalid⟩

theorem skip_invalid_levels_C3_witness :
    fillWalk ⟨250, 0, 0⟩ ([OrderLevel.mk 100 1] ++ OrderLevel.mk 101 0 :: [OrderLevel.mk 102 1])
        = fillWalk ⟨250, 0, 0⟩ ([OrderLevel.mk 100 1] ++ [OrderLevel.mk 102 1])
    ∧ get_weighted_price 8 [("100", "1"), ("101", "0"), ("102", "1")] 250
        = Except.ok ⟨101, 202, 2⟩
    ∧ get_weighted_price 8 [("100", "1"), ("102", "1")] 250
        = Except.ok ⟨101, 202, 2⟩ :=
  skip_invalid_levels_C3 [OrderLevel.mk 100 1] [OrderLevel.mk 102 1]
    (OrderLevel.mk 101 0) (Or.inr (by norm_num)) ⟨250, 0, 0⟩

/-- C6: with a non-empty levels list and a positive target, a price or
quantity string that does not parse to an exact-decimal number makes the
fill calculation fail with the parse-error kind — malformed levels are
never silently skipped — and the error propagates through the enclosing
spread calculation, aborting it. -/
theorem parse_error_aborts_C6 (orders : List (String × String)) (target : ℚ)
    (ht : 0 < target) (hne : orders ≠ [])
    (hbad : parseLevels orders = none) :
    get_weighted_price 8 orders target = Except.error .parseError
    ∧ ∀ (marketId : String) (bids : List (String × String)) (L a b : ℚ),
        parseDecimal (orders.headD ("", "")).1 = some a →
        parseDecimal (bids.headD ("", "")).1 = some b →
        bids ≠ [] → 0 < L →
        calculate_spreads 8 marketId orders bids [L]
          = Except.error .parseError := by
  have hmain : get_weighted_price 8 orders target = Except.error .parseError := by
    rw [get_weighted_price, if_neg (not_le.mpr ht),
      if_neg (by simpa [List.isEmpty_iff] using hne), hbad]
  refine ⟨hmain, ?_⟩
  intro marketId bids L a b ha hb hbids hL
  have hgwpL : get_weighted_price 8 orders L = Except.error .parseError := by
    rw [get_weighted_price, if_neg (not_le.mpr hL),
      if_neg (by simpa [List.isEmpty_iff] using hne), hbad]
  have hcond : ¬(orders.isEmpty ∨ bids.isEmpty) := by
    simp [List.isEmpty_iff, hne, hbids]
  rw [calculate_spreads, if_neg hcond, ha, hb]
  simp only [spreadLevelsLoop, hgwpL]

theorem parse_error_aborts_C6_witness :
    get_weighted_price 8 [("1", "1"), ("abc", "1")] 100 = Except.error .parseError
    ∧ ∀ (marketId : String) (bids : List (String × String)) (L a b : ℚ),
        parseDecimal (([("1", "1"), ("abc", "1")] : List (String × String)).headD ("", "")).1
          = some a →
        parseDecimal (bids.headD ("", "")).1 = some b →
        bids ≠ [] → 0 < L →
        calculate_spreads 8 marketId [("1", "1"), ("abc", "1")] bids [L]
          = Except.error .parseError :=
  parse_error_aborts_C6 [("1", "1"), ("abc", "1")] 100 (by norm_num) (by simp)
    (by simp [parseLevels, parseDecimal_1, parseDecimal_abc])

/-- C9: the fill calculator never overspends.  For every prefix of the walk
the accumulated notional spent stays at or below the target, and the
returned `amount_filled` (the half-up rounding of the total spent) is at
most the half-up rounding of the target. -/
theorem never_overspends_C9 (orders : List (String × String))
    (levels : List OrderLevel) (target : ℚ) (r : WeightedPriceResult) (n : ℕ)
    (ht : 0 < target) (hp : parseLevels orders = some levels)
    (hr : get_weighted_price 8 orders target = Except.ok r) :
    (fillWalk ⟨target, 0, 0⟩ (levels.take n)).totalQuote ≤ target
    ∧ r.actual_amount_filled ≤ roundHalfUp 8 target := by
  constructor
  · obtain ⟨hsum, hnn, -⟩ :=
      fillWalk_invariant (levels.take n) ⟨target, 0, 0⟩ (le_of_lt ht)
    simp only at hsum hnn
    linarith
  · rcases List.eq_nil_or_concat orders with hnil | -
    · subst hnil
      rw [get_weighted_price, if_neg (not_le.mpr ht)] at hr
      simp only [List.isEmpty_nil, if_true] at hr
      injection hr with hr
      subst hr
      exact roundHalfUp_nonneg 8 (le_of_lt ht)
    · rcases List.eq_nil_or_concat orders with hnil | hcons
      · subst hnil
        rw [get_weighted_price, if_neg (not_le.mpr ht)] at hr
        simp only [List.isEmpty_nil, if_true] at hr
        injection hr with hr
        subst hr
        exact roundHalfUp_nonneg 8 (le_of_lt ht)
      · have hne : orders ≠ [] := by
          obtain ⟨l, a, rfl⟩ := hcons
          simp
        rw [get_weighted_price_eq 8 orders target levels ht hne hp] at hr
        injection hr with hr
        subst hr
        obtain ⟨hsum, hnn, hq0⟩ :=
          fillWalk_invariant levels ⟨target, 0, 0⟩ (le_of_lt ht)
        simp only at hsum hnn hq0
        exact roundHalfUp_le_roundHalfUp 8 hq0 (by linarith)

theorem never_overspends_C9_witness :
    (fillWalk ⟨150, 0, 0⟩ ([OrderLevel.mk 100 1].take 1)).totalQuote ≤ 150
    ∧ (WeightedPriceResult.mk 100 100 1).actual_amount_filled
        ≤ roundHalfUp 8 150 :=
  never_overspends_C9 [("100", "1")] [OrderLevel.mk 100 1] 150
    ⟨100, 100, 1⟩ 1 (by norm_num)
    (by simp [parseLevels, parseDecimal_100, parseDecimal_1])
    eval_gwp_shallow_book

/-- C4 counterexample: the spread-sign invariant fails on the code.  For
the orderbook `asks = [("100.004", "1")]`, `bids = [("100", "1")]` the best
ask `100.004` is strictly greater than the best bid `100`, yet the market
summary's `best_spread` is `0`: the spread `0.004` is rounded half-up to 2
fractional digits before being returned. -/
theorem spread_sign_C4_counterexample :
    calculate_spreads 8 "M" [("100.004", "1")] [("100", "1")] []
        = Except.ok ⟨[], createMarketSummary "M" 100 (25001 / 250)⟩
    ∧ (100 : ℚ) < 25001 / 250
    ∧ (createMarketSummary "M" 100 (25001 / 250)).best_spread = 0 := by
  refine ⟨?_, by norm_num, ?_⟩
  · simp [calculate_spreads, parseDecimal_100_004, parseDecimal_100, spreadLevelsLoop]
  · show roundHalfUp 2 (25001 / 250 - 100) = 0
    rw [show (25001 / 250 - 100 : ℚ) = 1 / 250 by norm_num,
      roundHalfUp_eqz 2 (1 / 250) 0 (by norm_num) (by constructor <;> norm_num)]
    norm_num

/-- C4 amended: for a successfully analyzed orderbook whose best ask `a`
strictly exceeds its best bid `b`, the market summary's `best_spread` is
non-negative, and it is strictly positive whenever `a - b ≥ 0.005` (spreads
below half of the 2-digit rounding unit are rounded to `0`). -/
theorem spread_sign_C4_amended (precision : ℕ) (marketId : String)
    (asks bids : List (String × String)) (levels : List ℚ) (r : SpreadResults)
    (a b : ℚ)
    (hr : calculate_spreads precision marketId asks bids levels = Except.ok r)
    (ha : parseDecimal (asks.headD ("", "")).1 = some a)
    (hb : parseDecimal (bids.headD ("", "")).1 = some b)
    (hlt : b < a) :
    0 ≤ r.market_summary.best_spread
    ∧ (1 / 200 ≤ a - b → 0 < r.market_summary.best_spread) := by
  rw [calculate_spreads_summary precision marketId asks bids levels r a b hr ha hb]
  constructor
  · show 0 ≤ roundHalfUp 2 (a - b)
    exact roundHalfUp_nonneg 2 (by linarith)
  · intro h
    show 0 < roundHalfUp 2 (a - b)
    exact roundHalfUp_two_pos h

theorem spread_sign_C4_amended_witness :
    0 ≤ (SpreadResults.mk [] (createMarketSummary "m" 100 101)).market_summary.best_spread
    ∧ (1 / 200 ≤ (101 : ℚ) - 100 →
        0 < (SpreadResults.mk []
            (createMarketSummary "m" 100 101)).market_summary.best_spread) :=
  spread_sign_C4_amended 8 "m" [("101", "1")] [("100", "1")] []
    ⟨[], createMarketSummary "m" 100 101⟩ 101 100
    (by simp [calculate_spreads, parseDecimal_101, parseDecimal_100, spreadLevelsLoop])
    parseDecimal_101 parseDecimal_100 (by norm_num)

/-- C8: an orderbook whose best bid equals its best ask yields
`best_spread_pct = 0` (also through a full run of the spread analyzer), and
every guarded division of the metric derivations substitutes `0` when its
denominator is zero: the relative spread when the mid price is zero, the
buy-side impact when `best_ask = 0`, the sell-side impact when
`best_bid = 0`, and the summary percentage when the top-of-book mid price
is zero. -/
theorem zero_guard_divisions_C8 :
    (∀ (marketId : String) (p : ℚ),
        (createMarketSummary marketId p p).best_spread_pct = 0)
    ∧ (∀ (precision : ℕ) (marketId : String)
        (asks bids : List (String × String)) (levels : List ℚ)
        (r : SpreadResults) (a b : ℚ),
        calculate_spreads precision marketId asks bids levels = Except.ok r →
        parseDecimal (asks.headD ("", "")).1 = some a →
        parseDecimal (bids.headD ("", "")).1 = some b →
        a = b → r.market_summary.best_spread_pct = 0)
    ∧ (∀ (precision : ℕ) (br sr : WeightedPriceResult) (ba bb lvl : ℚ),
        br.weighted_price + sr.weighted_price = 0 →
        (calculateSpreadMetrics precision br sr ba bb lvl).relative_spread_pct = 0)
    ∧ (∀ (precision : ℕ) (br sr : WeightedPriceResult) (bb lvl : ℚ),
        (calculateSpreadMetrics precision br sr 0 bb lvl).market_impact_buy_pct = 0)
    ∧ (∀ (precision : ℕ) (br sr : WeightedPriceResult) (ba lvl : ℚ),
        (calculateSpreadMetrics precision br sr ba 0 lvl).market_impact_sell_pct = 0)
    ∧ (∀ (marketId : String) (p : ℚ),
        (createMarketSummary marketId (-p) p).best_spread_pct = 0) := by
  refine ⟨?_, ?_, ?_, ?_, ?_, ?_⟩
  · intro marketId p
    simp [createMarketSummary, roundHalfUp_zero]
  · intro precision marketId asks bids levels r a b hr ha hb heq
    subst heq
    rw [calculate_spreads_summary precision marketId asks bids levels r a a hr ha hb]
    simp [createMarketSummary, roundHalfUp_zero]
  · intro precision br sr ba bb lvl hsum
    simp only [calculateSpreadMetrics]
    rw [hsum]
    norm_num [roundHalfUp_zero]
  · intro precision br sr bb lvl
    simp [calculateSpreadMetrics, roundHalfUp_zero]
  · intro precision br sr ba lvl
    simp [calculateSpreadMetrics, roundHalfUp_zero]
  · intro marketId p
    simp [createMarketSummary, roundHalfUp_zero]

theorem zero_guard_divisions_C8_witness :
    (createMarketSummary "m" 2 2).best_spread_pct = 0
    ∧ (SpreadResults.mk []
        (createMarketSummary "m" 2 2)).market_summary.best_spread_pct = 0
    ∧ (calculateSpreadMetrics 8 ⟨1, 0, 0⟩ ⟨-1, 0, 0⟩ 5 5 100).relative_spread_pct = 0 :=
  ⟨zero_guard_divisions_C8.1 "m" 2,
    zero_guard_divisions_C8.2.1 8 "m" [("2", "1")] [("2", "1")] []
      ⟨[], createMarketSummary "m" 2 2⟩ 2 2
      (by simp [calculate_spreads, parseDecimal_2, spreadLevelsLoop])
      parseDecimal_2 parseDecimal_2 rfl,
    zero_guard_divisions_C8.2.2.1 8 ⟨1, 0, 0⟩ ⟨-1, 0, 0⟩ 5 5 100 (by norm_num)⟩

/-! ### Helper lemmas about the bar aggregator -/

theorem completeBars_idem (bars : List (List ℚ)) :
    completeBars (completeBars bars) = completeBars bars := by
  rw [completeBars, completeBars, List.filter_filter]
  congr 1
  funext b
  rw [Bool.and_self]

theorem opensOf_idem (bars : List (List ℚ)) :
    opensOf (completeBars bars) = opensOf bars := by
  rw [opensOf, completeBars_idem, opensOf]

theorem highsOf_idem (bars : List (List ℚ)) :
    highsOf (completeBars bars) = highsOf bars := by
  rw [highsOf, completeBars_idem, highsOf]

theorem lowsOf_idem (bars : List (List ℚ)) :
    lowsOf (completeBars bars) = lowsOf bars := by
  rw [lowsOf, completeBars_idem, lowsOf]

theorem closesOf_idem (bars : List (List ℚ)) :
    closesOf (completeBars bars) = closesOf bars := by
  rw [closesOf, completeBars_idem, closesOf]

theorem spreadsOf_idem (bars : List (List ℚ)) :
    spreadsOf (completeBars bars) = spreadsOf bars := by
  rw [spreadsOf, completeBars_idem, spreadsOf]

/-- Restricting the input to its complete bars does not change the
aggregation: every extraction loop already filters on completeness. -/
theorem aggregateBarsWith_filter (q1fn q3fn : List ℚ → ℚ)
    (bars : List (List ℚ)) :
    aggregateBarsWith q1fn q3fn (completeBars bars)
      = aggregateBarsWith q1fn q3fn bars := by
  simp only [aggregateBarsWith, opensOf_idem, highsOf_idem, lowsOf_idem,
    closesOf_idem, spreadsOf_idem]
  by_cases h1 : bars.isEmpty
  · have hb : bars = [] := List.isEmpty_iff.mp h1
    subst hb
    rfl
  · by_cases h2 : (completeBars bars).isEmpty
    · have hcb : completeBars bars = [] := List.isEmpty_iff.mp h2
      have hop : opensOf bars = [] := by rw [opensOf, hcb]; rfl
      simp [h1, h2, hop]
    · have hop : (opensOf bars).isEmpty = false := by
        rw [opensOf]
        cases hcb : completeBars bars with
        | nil => exact absurd hcb (by simpa using h2)
        | cons c cs => rfl
      simp [h1, h2, hop]

/-- The successful branch of the aggregation: when at least one bar is
complete, the result is the nine-field bar of the extraction lists. -/
theorem aggregateBarsWith_eq_some (q1fn q3fn : List ℚ → ℚ)
    (bars : List (List ℚ)) (hcbne : completeBars bars ≠ []) :
    aggregateBarsWith q1fn q3fn bars
      = some [(opensOf bars).headD 0, listMaxD (highsOf bars),
          listMinD (lowsOf bars), (closesOf bars).getLastD 0,
          listMinD (List.insertionSort (· ≤ ·) (spreadsOf bars)),
          if 1 < (List.insertionSort (· ≤ ·) (spreadsOf bars)).length then
            q1fn (List.insertionSort (· ≤ ·) (spreadsOf bars))
          else (List.insertionSort (· ≤ ·) (spreadsOf bars)).headD 0,
          pyMedian (List.insertionSort (· ≤ ·) (spreadsOf bars)),
          if 1 < (List.insertionSort (· ≤ ·) (spreadsOf bars)).length then
            q3fn (List.insertionSort (· ≤ ·) (spreadsOf bars))
          else (List.insertionSort (· ≤ ·) (spreadsOf bars)).headD 0,
          listMaxD (List.insertionSort (· ≤ ·) (spreadsOf bars))] := by
  have c1 : bars.isEmpty = false := by
    cases hb : bars with
    | nil =>
        refine absurd ?_ hcbne
        rw [hb]
        rfl
    | cons x xs => rfl
  have c2 : (opensOf bars).isEmpty = false := by
    rw [opensOf]
    cases hcb : completeBars bars with
    | nil => exact absurd hcb hcbne
    | cons c cs => rfl
  simp only [aggregateBarsWith, c1, c2, Bool.false_eq_true, if_false]

/-- C5 counterexample: the aggregator stores its fields unrounded.  A single
complete bar all of whose nine payload fields are `10.00001` aggregates to
the same nine values verbatim, and `10.00001` is equal neither to its 2-digit
nor to its 4-digit half-up rounding — so no field of the output bar was
rounded to the Spread Analyzer's convention. -/
theorem aggregator_rounding_C5_counterexample :
    aggregate_bars [[1000001 / 100000, 1000001 / 100000, 1000001 / 100000,
        1000001 / 100000, 1000001 / 100000, 1000001 / 100000, 1000001 / 100000,
        1000001 / 100000, 1000001 / 100000]]
      = some [1000001 / 100000, 1000001 / 100000, 1000001 / 100000,
          1000001 / 100000, 1000001 / 100000, 1000001 / 100000, 1000001 / 100000,
          1000001 / 100000, 1000001 / 100000]
    ∧ (1000001 / 100000 : ℚ) ≠ roundHalfUp 2 (1000001 / 100000)
    ∧ (1000001 / 100000 : ℚ) ≠ roundHalfUp 4 (1000001 / 100000) := by
  refine ⟨?_, ?_, ?_⟩
  · norm_num [aggregate_bars, aggregateBarsWith, opensOf, highsOf, lowsOf, closesOf,
      completeBars, spreadsOf, spreadFive, listMinD, listMaxD, pyMedian, pyQuantiles4,
      quantileExcAt, List.getD]
  · rw [roundHalfUp_eqz 2 _ 1000 (by norm_num) (by constructor <;> norm_num)]
    norm_num
  · rw [roundHalfUp_eqz 4 _ 100000 (by norm_num) (by constructor <;> norm_num)]
    norm_num

/-- C5 amended: `aggregate_bars` applies no rounding before storage; each
output field is the computed aggregate verbatim.  In particular, when the
first bar is complete the stored `open` equals that bar's `open` exactly,
including values not representable at 2 or 4 fractional digits (see the
counterexample). -/
theorem aggregator_rounding_C5_amended (b : List ℚ) (bars : List (List ℚ))
    (out : List ℚ) (hb : 9 ≤ b.length)
    (h : aggregate_bars (b :: bars) = some out) :
    out.headD 0 = b.getD 0 0 := by
  have hcb : completeBars (b :: bars) = b :: completeBars bars :=
    List.filter_cons_of_pos (by simpa using hb)
  rw [aggregate_bars, aggregateBarsWith_eq_some _ _ (b :: bars) (by rw [hcb]; simp)] at h
  injection h with h
  subst h
  show (opensOf (b :: bars)).headD 0 = b.getD 0 0
  rw [opensOf, hcb]
  rfl

theorem aggregator_rounding_C5_amended_witness :
    ([(1 : ℚ), 2, 3, 4, 5, 11 / 2, 7, 17 / 2, 9].headD 0)
      = ([(1 : ℚ), 2, 3, 4, 5, 6, 7, 8, 9].getD 0 0) :=
  aggregator_rounding_C5_amended [1, 2, 3, 4, 5, 6, 7, 8, 9] []
    [1, 2, 3, 4, 5, 11 / 2, 7, 17 / 2, 9] (by simp)
    (by norm_num [aggregate_bars, aggregateBarsWith, opensOf, highsOf, lowsOf,
      closesOf, completeBars, spreadsOf, spreadFive, listMinD, listMaxD, pyMedian,
      pyQuantiles4, quantileExcAt, List.getD])

/-- C7: for a non-empty sequence of complete bars, the aggregated bar's
spread `min` (field 4) is the least element of the pooled per-bar
five-number-summary values and its spread `max` (field 8) is the greatest,
for every choice of inner quartile functions; `aggregate_bars` is the
instance at the quartile method the code uses. -/
theorem pooled_extremes_C7 (q1fn q3fn : List ℚ → ℚ) (bars : List (List ℚ))
    (out : List ℚ) (hne : bars ≠ []) (hall : ∀ b ∈ bars, 9 ≤ b.length)
    (h : aggregateBarsWith q1fn q3fn bars = some out) :
    ((out.getD 4 0 ∈ spreadsOf bars ∧ ∀ x ∈ spreadsOf bars, out.getD 4 0 ≤ x)
      ∧ (out.getD 8 0 ∈ spreadsOf bars ∧ ∀ x ∈ spreadsOf bars, x ≤ out.getD 8 0))
    ∧ aggregate_bars bars
        = aggregateBarsWith (fun s => (pyQuantiles4 s).getD 0 0)
            (fun s => (pyQuantiles4 s).getD 2 0) bars := by
  have hcb : completeBars bars = bars :=
    List.filter_eq_self.mpr (fun b hb => by simpa using hall b hb)
  have hcbne : completeBars bars ≠ [] := by rw [hcb]; exact hne
  rw [aggregateBarsWith_eq_some q1fn q3fn bars hcbne] at h
  injection h with h
  subst h
  have hsp : spreadsOf bars ≠ [] := by
    rw [spreadsOf, hcb]
    cases bars with
    | nil => exact absurd rfl hne
    | cons b rest => simp [spreadFive]
  have hperm : (List.insertionSort (· ≤ ·) (spreadsOf bars)).Perm (spreadsOf bars) :=
    List.perm_insertionSort _ _
  have hsne : List.insertionSort (· ≤ ·) (spreadsOf bars) ≠ [] := by
    intro h0
    rw [h0] at hperm
    exact hsp (List.Perm.nil_eq hperm).symm
  refine ⟨⟨⟨?_, ?_⟩, ?_, ?_⟩, rfl⟩
  · show listMinD (List.insertionSort (· ≤ ·) (spreadsOf bars)) ∈ spreadsOf bars
    exact hperm.mem_iff.mp (listMinD_mem hsne)
  · intro x hx
    show listMinD (List.insertionSort (· ≤ ·) (spreadsOf bars)) ≤ x
    exact listMinD_le x (hperm.mem_iff.mpr hx)
  · show listMaxD (List.insertionSort (· ≤ ·) (spreadsOf bars)) ∈ spreadsOf bars
    exact hperm.mem_iff.mp (listMaxD_mem hsne)
  · intro x hx
    show x ≤ listMaxD (List.insertionSort (· ≤ ·) (spreadsOf bars))
    exact le_listMaxD x (hperm.mem_iff.mpr hx)

theorem pooled_extremes_C7_witness :
    ((([(1 : ℚ), 2, 3, 4, 5, 11 / 2, 7, 17 / 2, 9].getD 4 0)
          ∈ spreadsOf [[(1 : ℚ), 2, 3, 4, 5, 6, 7, 8, 9]]
        ∧ ∀ x ∈ spreadsOf [[(1 : ℚ), 2, 3, 4, 5, 6, 7, 8, 9]],
            ([(1 : ℚ), 2, 3, 4, 5, 11 / 2, 7, 17 / 2, 9].getD 4 0) ≤ x)
      ∧ (([(1 : ℚ), 2, 3, 4, 5, 11 / 2, 7, 17 / 2, 9].getD 8 0)
          ∈ spreadsOf [[(1 : ℚ), 2, 3, 4, 5, 6, 7, 8, 9]]
        ∧ ∀ x ∈ spreadsOf [[(1 : ℚ), 2, 3, 4, 5, 6, 7, 8, 9]],
            x ≤ ([(1 : ℚ), 2, 3, 4, 5, 11 / 2, 7, 17 / 2, 9].getD 8 0)))
    ∧ aggregate_bars [[(1 : ℚ), 2, 3, 4, 5, 6, 7, 8, 9]]
        = aggregateBarsWith (fun s => (pyQuantiles4 s).getD 0 0)
            (fun s => (pyQuantiles4 s).getD 2 0) [[(1 : ℚ), 2, 3, 4, 5, 6, 7, 8, 9]] :=
  pooled_extremes_C7 (fun s => (pyQuantiles4 s).getD 0 0)
    (fun s => (pyQuantiles4 s).getD 2 0) [[(1 : ℚ), 2, 3, 4, 5, 6, 7, 8, 9]]
    [1, 2, 3, 4, 5, 11 / 2, 7, 17 / 2, 9] (by simp)
    (by intro b hb; simp only [List.mem_singleton] at hb; subst hb; simp)
    (by norm_num [aggregateBarsWith, opensOf, highsOf, lowsOf, closesOf,
      completeBars, spreadsOf, spreadFive, listMinD, listMaxD, pyMedian,
      pyQuantiles4, quantileExcAt, List.getD])

/-- C10: bars whose payload has fewer than 9 fields are ignored entirely:
aggregation is invariant under removing them; a non-empty sequence of only
incomplete bars yields the no-data sentinel `none` rather than an error;
the aggregated `open` comes from the first complete bar even when
incomplete bars precede it, and the aggregated `close` from the last
complete bar even when incomplete bars follow it. -/
theorem aggregate_ignores_incomplete_C10 :
    (∀ bars : List (List ℚ),
        aggregate_bars bars = aggregate_bars (completeBars bars))
    ∧ (∀ bars : List (List ℚ), bars ≠ [] → (∀ b ∈ bars, b.length < 9) →
        aggregate_bars bars = none)
    ∧ (∀ (pre post : List (List ℚ)) (b out : List ℚ),
        (∀ x ∈ pre, x.length < 9) → 9 ≤ b.length →
        aggregate_bars (pre ++ b :: post) = some out →
        out.headD 0 = b.getD 0 0)
    ∧ (∀ (pre post : List (List ℚ)) (b out : List ℚ),
        (∀ x ∈ post, x.length < 9) → 9 ≤ b.length →
        aggregate_bars (pre ++ b :: post) = some out →
        out.getD 3 0 = b.getD 3 0) := by
  refine ⟨?_, ?_, ?_, ?_⟩
  · intro bars
    rw [aggregate_bars, aggregate_bars, aggregateBarsWith_filter]
  · intro bars hne hall
    have hcb : completeBars bars = [] :=
      List.filter_eq_nil_iff.mpr (fun b hb => by
        have := hall b hb
        simp only [decide_eq_true_eq]
        omega)
    have c1 : bars.isEmpty = false := by
      cases bars with
      | nil => exact absurd rfl hne
      | cons x xs => rfl
    have hop : (opensOf bars).isEmpty = true := by rw [opensOf, hcb]; rfl
    simp [aggregate_bars, aggregateBarsWith, c1, hop]
  · intro pre post b out hpre hb h
    have hprec : pre.filter (fun bb => decide (9 ≤ bb.length)) = [] :=
      List.filter_eq_nil_iff.mpr (fun x hx => by
        have := hpre x hx
        simp only [decide_eq_true_eq]
        omega)
    have hcb : completeBars (pre ++ b :: post) = b :: completeBars post := by
      rw [completeBars, List.filter_append, hprec,
        List.filter_cons_of_pos (by simpa using hb), List.nil_append]
      rfl
    rw [aggregate_bars,
      aggregateBarsWith_eq_some _ _ (pre ++ b :: post) (by rw [hcb]; simp)] at h
    injection h with h
    subst h
    show (opensOf (pre ++ b :: post)).headD 0 = b.getD 0 0
    rw [opensOf, hcb]
    rfl
  · intro pre post b out hpost hb h
    have hpostc : post.filter (fun bb => decide (9 ≤ bb.length)) = [] :=
      List.filter_eq_nil_iff.mpr (fun x hx => by
        have := hpost x hx
        simp only [decide_eq_true_eq]
        omega)
    have hcb : completeBars (pre ++ b :: post) = completeBars pre ++ [b] := by
      rw [completeBars, List.filter_append,
        List.filter_cons_of_pos (by simpa using hb), hpostc]
      rfl
    rw [aggregate_bars,
      aggregateBarsWith_eq_some _ _ (pre ++ b :: post) (by rw [hcb]; simp)] at h
    injection h with h
    subst h
    show (closesOf (pre ++ b :: post)).getLastD 0 = b.getD 3 0
    rw [closesOf, hcb, List.map_append]
    simp [List.getLastD_concat]

theorem aggregate_ignores_incomplete_C10_witness :
    aggregate_bars [[(1 : ℚ)]] = none
    ∧ ([(1 : ℚ), 2, 3, 4, 5, 11 / 2, 7, 17 / 2, 9].headD 0)
        = ([(1 : ℚ), 2, 3, 4, 5, 6, 7, 8, 9].getD 0 0)
    ∧ ([(1 : ℚ), 2, 3, 4, 5, 11 / 2, 7, 17 / 2, 9].getD 3 0)
        = ([(1 : ℚ), 2, 3, 4, 5, 6, 7, 8, 9].getD 3 0) :=
  ⟨aggregate_ignores_incomplete_C10.2.1 [[(1 : ℚ)]] (by simp)
      (by intro b hb; simp only [List.mem_singleton] at hb; subst hb; simp),
    aggregate_ignores_incomplete_C10.2.2.1 [[(1 : ℚ)]] [] [1, 2, 3, 4, 5, 6, 7, 8, 9]
      [1, 2, 3, 4, 5, 11 / 2, 7, 17 / 2, 9]
      (by intro x hx; simp only [List.mem_singleton] at hx; subst hx; simp)
      (by simp)
      (by norm_num [aggregate_bars, aggregateBarsWith, opensOf, highsOf, lowsOf,
        closesOf, completeBars, spreadsOf, spreadFive, listMinD, listMaxD, pyMedian,
        pyQuantiles4, quantileExcAt, List.getD]),
    aggregate_ignores_incomplete_C10.2.2.2 [] [[(1 : ℚ)]] [1, 2, 3, 4, 5, 6, 7, 8, 9]
      [1, 2, 3, 4, 5, 11 / 2, 7, 17 / 2, 9]
      (by intro x hx; simp only [List.mem_singleton] at hx; subst hx; simp)
      (by simp)
      (by norm_num [aggregate_bars, aggregateBarsWith, opensOf, highsOf, lowsOf,
        closesOf, completeBars, spreadsOf, spreadFive, listMinD, listMaxD, pyMedian,
        pyQuantiles4, quantileExcAt, List.getD])⟩
